import Mathlib

/-!
# Verification of the toyDB Raft log (`src/raft/log.rs`)

Shallow embedding of the Raft log subsystem. The underlying storage engine is
an ordered key-value store; the log uses three disjoint key families:
`Entry(index)`, `TermVote` and `CommitIndex`. We model the engine state as a
record holding the entry family as a list of entries ordered by the engine's
key order (i.e. ascending index — the real engine scans keys in byte order and
the key codec is order preserving in the index), plus the two singleton keys as
typed options. Engine mutations are recorded in an operation trace so that
write/flush behaviour is observable. Rust panics (assertion failures) are
modelled as `none`; `Result::Ok` becomes `some`.
-/

/- Machine integers: indexes (u64, 1-based; 0 means no index), terms (u64) and
node ids are modelled as `Nat`; commands (opaque byte strings) as `List Nat`.
None of the verified claims involve u64 overflow. -/

/-- A log entry containing a state machine command (`Entry` in log.rs). -/
structure Entry where
  index : Nat
  term : Nat
  command : Option (List Nat)
deriving DecidableEq, Repr

/-- A log storage key (`Key` in log.rs). -/
inductive Key where
  | entry : Nat → Key
  | termVote : Key
  | commitIndex : Key
deriving DecidableEq, Repr

/-- An observable engine mutation: a set or delete of a key, or a flush. -/
inductive EngineOp where
  | set : Key → EngineOp
  | del : Key → EngineOp
  | flush : EngineOp
deriving DecidableEq, Repr

/-- Lookup of the entry stored under key `Entry(i)`: the first list element
whose index field is `i` (unique when the store is well formed). -/
def getE (es : List Entry) (i : Nat) : Option Entry :=
  es.find? (fun e => e.index == i)

/-- `engine.set(Entry(e.index), e)`: insert `e` at its key-order position,
replacing any existing entry at the same index. -/
def setE : List Entry → Entry → List Entry
  | [], e => [e]
  | x :: xs, e =>
    if e.index < x.index then e :: x :: xs
    else if e.index = x.index then e :: xs
    else x :: setE xs e

/-- `engine.delete(Entry(i))`: remove the entry stored at index `i`. -/
def delE (es : List Entry) (i : Nat) : List Entry :=
  es.filter (fun e => e.index ≠ i)

/-- An engine range scan over `Entry(lo) ..= Entry(hi)`: all stored entries
with index in `[lo, hi]`, in key order. -/
def scanRange (lo hi : Nat) (es : List Entry) : List Entry :=
  es.filter (fun e => lo ≤ e.index && e.index ≤ hi)

/-- The storage engine state visible to the log: the entry key family plus the
two singleton metadata keys, each absent or holding its decoded value. -/
structure Engine where
  entries : List Entry
  termVote : Option (Nat × Option Nat)
  commitIdx : Option (Nat × Nat)
deriving DecidableEq, Repr

/-- The Raft log façade (`Log` in log.rs): the engine plus cached state. -/
structure Log where
  engine : Engine
  term : Nat
  vote : Option Nat
  last_index : Nat
  last_term : Nat
  commit_index : Nat
  commit_term : Nat
  fsync : Bool
deriving DecidableEq, Repr

namespace Log

/-- `Log::new`: initializes a log from the given engine, recovering cached
state: `(term, vote)` from `TermVote` (default `(0, none)`), the last
index/term from the final element of a scan over the whole entry key range
(default `(0, 0)`), and `(commit_index, commit_term)` from `CommitIndex`
(default `(0, 0)`). `fsync` defaults to true. -/
def new (engine : Engine) : Log :=
  let tv := engine.termVote.getD (0, none)
  let lt := match engine.entries.getLast? with
    | some e => (e.index, e.term)
    | none => (0, 0)
  let ci := engine.commitIdx.getD (0, 0)
  { engine := engine, term := tv.1, vote := tv.2,
    last_index := lt.1, last_term := lt.2,
    commit_index := ci.1, commit_term := ci.2, fsync := true }

/-- `Log::enable_fsync`. -/
def enable_fsync (l : Log) (fsync : Bool) : Log :=
  { l with fsync := fsync }

/-- `Log::get_commit_index`. -/
def get_commit_index (l : Log) : Nat × Nat :=
  (l.commit_index, l.commit_term)

/-- `Log::get_last_index`. -/
def get_last_index (l : Log) : Nat × Nat :=
  (l.last_index, l.last_term)

/-- `Log::get_term_vote`. -/
def get_term_vote (l : Log) : Nat × Option Nat :=
  (l.term, l.vote)

/-- `Log::set_term_vote`: stores the current term and cast vote. The three
assertions (term nonzero, no term regression, no vote change within a term)
are fatal (`none`). Equal term and vote is a no-op; otherwise the `TermVote`
key is written and the engine flushed unconditionally, then the cache
updated. -/
def set_term_vote (l : Log) (term : Nat) (vote : Option Nat) :
    Option (Log × List EngineOp) :=
  if term = 0 then none
  else if term < l.term then none
  else if ¬ (l.term < term ∨ l.vote = none ∨ vote = l.vote) then none
  else if term = l.term ∧ vote = l.vote then some (l, [])
  else
    let engine' := { l.engine with termVote := some (term, vote) }
    some ({ l with engine := engine', term := term, vote := vote },
          [EngineOp.set Key.termVote, EngineOp.flush])

/-- `Log::append`: appends a command at the current term (fatal in term 0),
writing `Entry(last_index + 1)`, flushing when `fsync` is enabled, and
updating the cached last index/term. Returns the new index. -/
def append (l : Log) (command : Option (List Nat)) :
    Option (Nat × Log × List EngineOp) :=
  if l.term = 0 then none
  else
    let entry : Entry := ⟨l.last_index + 1, l.term, command⟩
    let engine' := { l.engine with entries := setE l.engine.entries entry }
    some (entry.index,
          { l with engine := engine', last_index := entry.index, last_term := entry.term },
          EngineOp.set (Key.entry entry.index) ::
            (if l.fsync then [EngineOp.flush] else []))

/-- `Log::get`: fetches the entry at an index, or `none` if absent. -/
def get (l : Log) (index : Nat) : Option Entry :=
  getE l.engine.entries index

/-- `Log::commit`: commits entries up to and including `index`. Fatal when no
entry exists at `index` or on commit regression; a no-op at the current commit
index; otherwise writes `CommitIndex = (index, term)` (without flushing) and
updates the cache. -/
def commit (l : Log) (index : Nat) : Option (Nat × Log × List EngineOp) :=
  match l.get index with
  | some entry =>
    if entry.index < l.commit_index then none
    else if entry.index = l.commit_index then some (index, l, [])
    else
      let engine' := { l.engine with commitIdx := some (index, entry.term) }
      some (index,
            { l with engine := engine', commit_index := index, commit_term := entry.term },
            [EngineOp.set Key.commitIndex])
  | none => none

/-- `Log::has`: checks whether the log contains the given index and term,
with fast paths against the cached last index/term. -/
def has (l : Log) (index : Nat) (term : Nat) : Bool :=
  if index = 0 ∨ l.last_index < index then false
  else if index = l.last_index ∧ term = l.last_term then true
  else match l.get index with
    | some e => e.term == term
    | none => false

/-- `Log::scan` over a closed index range `[lo, hi]`. -/
def scan (l : Log) (lo hi : Nat) : List Entry :=
  scanRange lo hi l.engine.entries

/-- `Log::scan_apply`: entries in `(applied_index, commit_index]`, empty when
`applied_index ≥ commit_index`. -/
def scan_apply (l : Log) (applied_index : Nat) : List Entry :=
  if l.commit_index ≤ applied_index then []
  else l.scan (applied_index + 1) l.commit_index

end Log

/-- `entries.windows(2).all(|w| w[0].index + 1 == w[1].index)`: spliced
entries have contiguous indexes. -/
def contiguousB : List Entry → Bool
  | e1 :: e2 :: rest => e1.index + 1 == e2.index && contiguousB (e2 :: rest)
  | _ => true

/-- `entries.windows(2).all(|w| w[0].term <= w[1].term)`: spliced entries
have non-decreasing terms. -/
def termsNonDecB : List Entry → Bool
  | e1 :: e2 :: rest => e1.term ≤ e2.term && termsNonDecB (e2 :: rest)
  | _ => true

/-- The base-entry check of `Log::splice`: the entry preceding the first
spliced entry must exist with a term at most `first.term`, unless the first
index is 1. -/
def baseOK (l : Log) (first : Entry) : Bool :=
  match l.get (first.index - 1) with
  | some base => base.term ≤ first.term
  | none => first.index == 1

/-- The duplicate-skipping loop of `Log::splice`: walk the scanned existing
entries in lockstep with the input. An index mismatch or a command mismatch at
an equal term is fatal (`none`), as is the scan outrunning the input
(`entries[0]` out of bounds); a term mismatch stops the walk. Returns the
input entries not already present. -/
def skipDup : List Entry → List Entry → Option (List Entry)
  | [], rest => some rest
  | _ :: _, [] => none
  | e :: scanRest, r :: rs =>
    if e.index ≠ r.index then none
    else if e.term ≠ r.term then some (r :: rs)
    else if e.command ≠ r.command then none
    else skipDup scanRest rs

/-- The stale tail of the old log truncated by `Log::splice`: the indexes
`last.index + 1 ..= last_index`. -/
def spliceDels (l : Log) (last : Entry) : List Nat :=
  List.range' (last.index + 1) (l.last_index - last.index)

/-- The effect of the writing phase of `Log::splice` once the commit-index
check has passed: write the remaining entries, delete the stale tail, flush
when `fsync` is enabled, and update the cached last index/term, returning the
new last index. -/
def spliceApply (l : Log) (rest : List Entry) (last : Entry) :
    Nat × Log × List EngineOp :=
  let afterSet := rest.foldl setE l.engine.entries
  let afterDel := (spliceDels l last).foldl delE afterSet
  let engine' := { l.engine with entries := afterDel }
  (last.index,
   { l with engine := engine', last_index := last.index, last_term := last.term },
   rest.map (fun e => EngineOp.set (Key.entry e.index)) ++
     (spliceDels l last).map (fun i => EngineOp.del (Key.entry i)) ++
     (if l.fsync then [EngineOp.flush] else []))

/-- The writing phase of `Log::splice`, after the well-formedness and base
checks passed, given the head and last input entries. -/
def spliceWrite (l : Log) (entries : List Entry) (first last : Entry) :
    Option (Nat × Log × List EngineOp) :=
  match skipDup (scanRange first.index last.index l.engine.entries) entries with
  | none => none
  | some [] => some (l.last_index, l, [])
  | some (f :: rs) =>
    if f.index ≤ l.commit_index then none
    else some (spliceApply l (f :: rs) last)

namespace Log

/-- `Log::splice`: splices a set of entries into the log. Empty input is a
no-op. The well-formedness assertions (nonzero first index and term,
contiguous indexes, non-decreasing terms, last term at most the current term,
base check) are fatal. Entries already present are skipped; if any remain,
the first must be above the commit index (fatal otherwise), the remaining
entries are written, the stale tail `(last.index, last_index]` deleted, and
the engine flushed when `fsync` is enabled. Returns the new last index. -/
def splice (l : Log) (entries : List Entry) :
    Option (Nat × Log × List EngineOp) :=
  match entries.head?, entries.getLast? with
  | some first, some last =>
    if first.index = 0 ∨ first.term = 0 then none
    else if ¬ contiguousB entries then none
    else if ¬ termsNonDecB entries then none
    else if l.term < last.term then none
    else if ¬ baseOK l first then none
    else spliceWrite l entries first last
  | _, _ => some (l.last_index, l, [])

end Log

/-- One call of the mutating log API, for reasoning about operation
sequences. -/
inductive LogOp where
  | append : Option (List Nat) → LogOp
  | commit : Nat → LogOp
  | set_term_vote : Nat → Option Nat → LogOp
  | splice : List Entry → LogOp
  | enable_fsync : Bool → LogOp
deriving DecidableEq, Repr

/-- Apply one log operation, returning the new log and the engine trace. -/
def applyOp (l : Log) : LogOp → Option (Log × List EngineOp)
  | LogOp.append c => (l.append c).map (fun r => (r.2.1, r.2.2))
  | LogOp.commit i => (l.commit i).map (fun r => (r.2.1, r.2.2))
  | LogOp.set_term_vote t v => l.set_term_vote t v
  | LogOp.splice es => (l.splice es).map (fun r => (r.2.1, r.2.2))
  | LogOp.enable_fsync b => some (l.enable_fsync b, [])

/-- Apply a sequence of log operations, failing if any call is fatal. -/
def applySeq (l : Log) : List LogOp → Option Log
  | [] => some l
  | op :: rest =>
    match applyOp l op with
    | none => none
    | some (l', _) => applySeq l' rest

/-! ## Basic store lemmas -/

theorem getE_nil (i : Nat) : getE [] i = none := rfl

theorem getE_cons (x : Entry) (xs : List Entry) (i : Nat) :
    getE (x :: xs) i = if x.index = i then some x else getE xs i := by
  by_cases h : x.index = i
  · simp [getE, List.find?_cons_of_pos, h]
  · simp [getE, List.find?_cons_of_neg, h]

theorem index_of_getE {es : List Entry} {i : Nat} {e : Entry}
    (h : getE es i = some e) : e.index = i := by
  have := List.find?_some h
  simpa using this

theorem mem_of_getE {es : List Entry} {i : Nat} {e : Entry}
    (h : getE es i = some e) : e ∈ es :=
  List.mem_of_find?_eq_some h

theorem delE_cons (x : Entry) (xs : List Entry) (i : Nat) :
    delE (x :: xs) i = if x.index = i then delE xs i else x :: delE xs i := by
  by_cases h : x.index = i <;> simp [delE, List.filter_cons, h]

theorem scanRange_cons (lo hi : Nat) (x : Entry) (xs : List Entry) :
    scanRange lo hi (x :: xs) =
      if lo ≤ x.index ∧ x.index ≤ hi then x :: scanRange lo hi xs
      else scanRange lo hi xs := by
  by_cases h : lo ≤ x.index ∧ x.index ≤ hi
  · simp [scanRange, List.filter_cons, h.1, h.2]
  · rw [if_neg h]
    rcases Decidable.not_and_iff_or_not.mp h with h1 | h1 <;>
      simp [scanRange, List.filter_cons, h1]

theorem getE_setE_self (es : List Entry) (e : Entry) :
    getE (setE es e) e.index = some e := by
  induction es with
  | nil => simp [setE, getE_cons]
  | cons x xs ih =>
    by_cases h1 : e.index < x.index
    · simp [setE, h1, getE_cons]
    · by_cases h2 : e.index = x.index
      · simp [setE, h1, h2, getE_cons]
      · have hx : ¬ x.index = e.index := fun h => h2 h.symm
        simp [setE, h1, h2, getE_cons, hx, ih]

theorem getE_setE_ne (es : List Entry) (e : Entry) {i : Nat}
    (h : i ≠ e.index) : getE (setE es e) i = getE es i := by
  have h' : ¬ e.index = i := fun hh => h hh.symm
  induction es with
  | nil => simp [setE, getE_cons, getE_nil, h']
  | cons x xs ih =>
    by_cases h1 : e.index < x.index
    · simp [setE, h1, getE_cons, h']
    · by_cases h2 : e.index = x.index
      · have hx : ¬ x.index = i := by rw [← h2]; exact h'
        simp [setE, h1, h2, getE_cons, hx, h']
      · simp [setE, h1, h2, getE_cons, ih]

theorem getE_delE_self (es : List Entry) (i : Nat) :
    getE (delE es i) i = none := by
  induction es with
  | nil => rfl
  | cons x xs ih =>
    rw [delE_cons]
    by_cases h : x.index = i
    · simp [h, ih]
    · simp [getE_cons, h, ih]

theorem getE_delE_ne (es : List Entry) {i j : Nat} (h : i ≠ j) :
    getE (delE es j) i = getE es i := by
  induction es with
  | nil => rfl
  | cons x xs ih =>
    rw [delE_cons]
    by_cases hx : x.index = j
    · have hji : ¬ j = i := fun hh => h hh.symm
      simp [hx, getE_cons, hji, ih]
    · simp [hx, getE_cons, ih]

theorem getE_scanRange (lo hi : Nat) (es : List Entry) (i : Nat) :
    getE (scanRange lo hi es) i =
      if lo ≤ i ∧ i ≤ hi then getE es i else none := by
  induction es with
  | nil => simp [scanRange, getE_nil]
  | cons x xs ih =>
    rw [scanRange_cons]
    by_cases hx : x.index = i
    · subst hx
      by_cases hin : lo ≤ x.index ∧ x.index ≤ hi
      · simp [hin, getE_cons]
      · simp [hin, ih]
    · by_cases hin : lo ≤ x.index ∧ x.index ≤ hi
      · simp [hin, getE_cons, hx, ih]
      · simp [hin, getE_cons, hx, ih]

/-! ## Ordering of the entry key family -/

/-- Strict index order between entries: the engine's key order. -/
def idxLt (a b : Entry) : Prop := a.index < b.index

instance : DecidableRel idxLt := fun a b => Nat.decLt a.index b.index

instance : IsTrans Entry idxLt := ⟨fun _ _ _ h1 h2 => Nat.lt_trans h1 h2⟩

theorem getE_eq_none_of_all_ne {es : List Entry} {i : Nat}
    (h : ∀ e ∈ es, e.index ≠ i) : getE es i = none := by
  induction es with
  | nil => rfl
  | cons x xs ih =>
    rw [getE_cons, if_neg (h x (by simp))]
    exact ih (fun e he => h e (by simp [he]))

theorem getE_eq_some_of_mem {es : List Entry} (hp : es.Pairwise idxLt)
    {e : Entry} (he : e ∈ es) : getE es e.index = some e := by
  induction es with
  | nil => cases he
  | cons x xs ih =>
    rcases List.mem_cons.mp he with rfl | hmem
    · simp [getE_cons]
    · have hx : x.index ≠ e.index :=
        Nat.ne_of_lt ((List.pairwise_cons.mp hp).1 e hmem)
      rw [getE_cons, if_neg hx]
      exact ih (List.pairwise_cons.mp hp).2 hmem

theorem mem_setE {es : List Entry} {e x : Entry} (h : x ∈ setE es e) :
    x = e ∨ x ∈ es := by
  induction es with
  | nil => simpa [setE] using h
  | cons y ys ih =>
    by_cases h1 : e.index < y.index
    · simp only [setE, if_pos h1] at h
      rcases List.mem_cons.mp h with heq | h
      · exact Or.inl heq
      · exact Or.inr h
    · by_cases h2 : e.index = y.index
      · simp only [setE, if_neg h1, if_pos h2] at h
        rcases List.mem_cons.mp h with heq | h
        · exact Or.inl heq
        · exact Or.inr (List.mem_cons_of_mem y h)
      · simp only [setE, if_neg h1, if_neg h2] at h
        rcases List.mem_cons.mp h with heq | h
        · exact Or.inr (heq ▸ List.mem_cons_self y ys)
        · rcases ih h with heq | h
          · exact Or.inl heq
          · exact Or.inr (List.mem_cons_of_mem y h)

theorem mem_delE {es : List Entry} {i : Nat} {x : Entry}
    (h : x ∈ delE es i) : x ∈ es ∧ x.index ≠ i := by
  have := List.mem_filter.mp h
  exact ⟨this.1, by simpa using this.2⟩

theorem pairwise_setE {es : List Entry} (hp : es.Pairwise idxLt) (e : Entry) :
    (setE es e).Pairwise idxLt := by
  induction es with
  | nil => simp [setE, idxLt]
  | cons x xs ih =>
    have hx := (List.pairwise_cons.mp hp).1
    have hxs := (List.pairwise_cons.mp hp).2
    by_cases h1 : e.index < x.index
    · rw [setE, if_pos h1]
      refine List.pairwise_cons.mpr ⟨?_, hp⟩
      intro z hz
      rcases List.mem_cons.mp hz with rfl | hz
      · exact h1
      · exact Nat.lt_trans h1 (hx z hz)
    · by_cases h2 : e.index = x.index
      · rw [setE, if_neg h1, if_pos h2]
        refine List.pairwise_cons.mpr ⟨?_, hxs⟩
        intro z hz
        show e.index < z.index
        rw [h2]
        exact hx z hz
      · rw [setE, if_neg h1, if_neg h2]
        refine List.pairwise_cons.mpr ⟨?_, ih hxs⟩
        intro z hz
        rcases mem_setE hz with rfl | hz
        · exact Nat.lt_of_le_of_ne (Nat.le_of_not_lt h1) (fun hh => h2 hh.symm)
        · exact hx z hz

theorem pairwise_delE {es : List Entry} (hp : es.Pairwise idxLt) (i : Nat) :
    (delE es i).Pairwise idxLt :=
  List.Pairwise.sublist (List.filter_sublist es) hp

theorem pairwise_foldl_setE {xs : List Entry} :
    ∀ {es : List Entry}, es.Pairwise idxLt → (xs.foldl setE es).Pairwise idxLt := by
  induction xs with
  | nil => intro es hp; exact hp
  | cons x xs ih => intro es hp; exact ih (pairwise_setE hp x)

theorem pairwise_foldl_delE {ds : List Nat} :
    ∀ {es : List Entry}, es.Pairwise idxLt → (ds.foldl delE es).Pairwise idxLt := by
  induction ds with
  | nil => intro es hp; exact hp
  | cons d ds ih => intro es hp; exact ih (pairwise_delE hp d)

theorem mem_foldl_setE {xs : List Entry} :
    ∀ {es : List Entry} {x : Entry}, x ∈ xs.foldl setE es → x ∈ xs ∨ x ∈ es := by
  induction xs with
  | nil => intro es x h; exact Or.inr h
  | cons y ys ih =>
    intro es x h
    rcases ih h with h | h
    · exact Or.inl (by simp [h])
    · rcases mem_setE h with rfl | h
      · exact Or.inl (by simp)
      · exact Or.inr h

theorem mem_foldl_delE {ds : List Nat} :
    ∀ {es : List Entry} {x : Entry}, x ∈ ds.foldl delE es → x ∈ es ∧ x.index ∉ ds := by
  induction ds with
  | nil => intro es x h; exact ⟨h, by simp⟩
  | cons d ds ih =>
    intro es x h
    rcases ih h with ⟨h1, h2⟩
    rcases mem_delE h1 with ⟨h3, h4⟩
    exact ⟨h3, by simp [h4, h2]⟩

theorem getE_foldl_setE_of_all_ne {xs : List Entry} :
    ∀ {es : List Entry} {i : Nat}, (∀ x ∈ xs, x.index ≠ i) →
      getE (xs.foldl setE es) i = getE es i := by
  induction xs with
  | nil => intro es i _; rfl
  | cons x xs ih =>
    intro es i h
    rw [List.foldl_cons, ih (fun z hz => h z (by simp [hz])),
      getE_setE_ne es x (fun hh => h x (by simp) hh.symm)]

theorem getE_foldl_setE_of_mem {xs : List Entry} (hp : xs.Pairwise idxLt) :
    ∀ {es : List Entry} {e : Entry}, e ∈ xs →
      getE (xs.foldl setE es) e.index = some e := by
  induction xs with
  | nil => intro es e h; cases h
  | cons x xs ih =>
    intro es e h
    rcases List.mem_cons.mp h with rfl | h
    · rw [List.foldl_cons,
        getE_foldl_setE_of_all_ne
          (fun z hz => Nat.ne_of_gt ((List.pairwise_cons.mp hp).1 z hz))]
      exact getE_setE_self es e
    · exact ih (List.pairwise_cons.mp hp).2 h

theorem getE_foldl_delE_of_not_mem {ds : List Nat} :
    ∀ {es : List Entry} {i : Nat}, i ∉ ds →
      getE (ds.foldl delE es) i = getE es i := by
  induction ds with
  | nil => intro es i _; rfl
  | cons d ds ih =>
    intro es i h
    rw [List.foldl_cons, ih (fun hh => h (by simp [hh])),
      getE_delE_ne es (fun hh => h (by simp [hh]))]

theorem getE_foldl_delE_of_mem {ds : List Nat} :
    ∀ {es : List Entry} {i : Nat}, i ∈ ds →
      getE (ds.foldl delE es) i = none := by
  induction ds with
  | nil => intro es i h; cases h
  | cons d ds ih =>
    intro es i h
    by_cases hd : i ∈ ds
    · exact ih hd
    · rcases List.mem_cons.mp h with rfl | h
      · rw [List.foldl_cons, getE_foldl_delE_of_not_mem hd, getE_delE_self]
      · exact absurd h hd

/-! ## Last-element and contiguity lemmas -/

theorem pairwise_mem_le_getLast {es : List Entry} (hp : es.Pairwise idxLt)
    {last : Entry} (hl : es.getLast? = some last) :
    ∀ e ∈ es, e.index ≤ last.index := by
  induction es with
  | nil => intro e he; cases he
  | cons x xs ih =>
    intro e he
    cases xs with
    | nil =>
      simp at hl
      rcases List.mem_singleton.mp he with rfl
      simp [hl]
    | cons y ys =>
      rw [List.getLast?_cons_cons] at hl
      rcases List.mem_cons.mp he with rfl | he
      · have hlast : last ∈ y :: ys := List.mem_of_getLast?_eq_some hl
        exact Nat.le_of_lt ((List.pairwise_cons.mp hp).1 last hlast)
      · exact ih (List.pairwise_cons.mp hp).2 hl e he

theorem getLast?_eq_of_max {es : List Entry} (hp : es.Pairwise idxLt)
    {e : Entry} (he : e ∈ es) (hmax : ∀ x ∈ es, x.index ≤ e.index) :
    es.getLast? = some e := by
  induction es with
  | nil => cases he
  | cons x xs ih =>
    cases xs with
    | nil =>
      rcases List.mem_singleton.mp he with rfl
      rfl
    | cons y ys =>
      rw [List.getLast?_cons_cons]
      have hxy : x.index < y.index := (List.pairwise_cons.mp hp).1 y (by simp)
      rcases List.mem_cons.mp he with rfl | hmem
      · exact absurd (hmax y (by simp)) (Nat.not_le_of_lt hxy)
      · exact ih (List.pairwise_cons.mp hp).2 hmem
          (fun z hz => hmax z (List.mem_cons_of_mem x hz))

theorem setE_append_of_all_lt {es : List Entry} {x : Entry}
    (h : ∀ e ∈ es, e.index < x.index) : setE es x = es ++ [x] := by
  induction es with
  | nil => rfl
  | cons y ys ih =>
    have hy : y.index < x.index := h y (by simp)
    rw [setE, if_neg (Nat.not_lt_of_lt hy), if_neg (Nat.ne_of_gt hy),
      ih (fun e he => h e (List.mem_cons_of_mem y he)), List.cons_append]

theorem contiguousB_tail {x : Entry} {xs : List Entry}
    (h : contiguousB (x :: xs) = true) : contiguousB xs = true := by
  cases xs with
  | nil => rfl
  | cons y ys => exact (Bool.and_eq_true_iff.mp h).2

theorem termsNonDecB_tail {x : Entry} {xs : List Entry}
    (h : termsNonDecB (x :: xs) = true) : termsNonDecB xs = true := by
  cases xs with
  | nil => rfl
  | cons y ys => exact (Bool.and_eq_true_iff.mp h).2

theorem contiguousB_head_lt {x : Entry} {xs : List Entry}
    (h : contiguousB (x :: xs) = true) : ∀ z ∈ xs, x.index < z.index := by
  induction xs generalizing x with
  | nil => intro z hz; cases hz
  | cons y ys ih =>
    intro z hz
    have hxy : x.index + 1 = y.index := by
      simpa using (Bool.and_eq_true_iff.mp h).1
    rcases List.mem_cons.mp hz with heq | hz
    · subst heq; omega
    · have := ih (contiguousB_tail h) z hz
      omega

theorem contiguousB_pairwise {es : List Entry} (h : contiguousB es = true) :
    es.Pairwise idxLt := by
  induction es with
  | nil => exact List.Pairwise.nil
  | cons x xs ih =>
    exact List.pairwise_cons.mpr
      ⟨fun z hz => contiguousB_head_lt h z hz, ih (contiguousB_tail h)⟩

theorem contiguousB_drop {es : List Entry} (h : contiguousB es = true)
    (k : Nat) : contiguousB (es.drop k) = true := by
  induction k generalizing es with
  | zero => simpa using h
  | succ n ih =>
    cases es with
    | nil => rfl
    | cons x xs => exact ih (contiguousB_tail h)

theorem contiguousB_mem_le_last {es : List Entry} (h : contiguousB es = true)
    {last : Entry} (hl : es.getLast? = some last) :
    ∀ e ∈ es, e.index ≤ last.index :=
  pairwise_mem_le_getLast (contiguousB_pairwise h) hl

theorem contiguousB_head_le_mem {es : List Entry} (h : contiguousB es = true)
    {first : Entry} (hf : es.head? = some first) :
    ∀ e ∈ es, first.index ≤ e.index := by
  cases es with
  | nil => intro e he; cases he
  | cons x xs =>
    intro e he
    have hx : x = first := by simpa using hf
    subst hx
    rcases List.mem_cons.mp he with heq | he
    · subst heq; exact Nat.le_refl _
    · exact Nat.le_of_lt (contiguousB_head_lt h e he)

theorem getLast?_drop_of_ne_nil {es : List Entry} {k : Nat}
    (h : es.drop k ≠ []) : (es.drop k).getLast? = es.getLast? := by
  conv_rhs => rw [← List.take_append_drop k es]
  rw [List.getLast?_append_of_ne_nil _ h]

/-! ## skipDup lemmas -/

theorem skipDup_refl (xs : List Entry) : skipDup xs xs = some [] := by
  induction xs with
  | nil => rfl
  | cons x xs ih => simp [skipDup, ih]

theorem skipDup_spec {sc es rest : List Entry}
    (h : skipDup sc es = some rest) :
    ∃ k, k ≤ es.length ∧ rest = es.drop k ∧ es.take k = sc.take k := by
  induction sc generalizing es rest with
  | nil =>
    refine ⟨0, Nat.zero_le _, ?_, rfl⟩
    simpa [skipDup] using h.symm
  | cons e scanRest ih =>
    cases es with
    | nil => simp [skipDup] at h
    | cons r rs =>
      by_cases h1 : e.index ≠ r.index
      · simp [skipDup, h1] at h
      · by_cases h2 : e.term ≠ r.term
        · rw [skipDup, if_neg h1, if_pos h2] at h
          refine ⟨0, Nat.zero_le _, ?_, rfl⟩
          simpa using h.symm
        · by_cases h3 : e.command ≠ r.command
          · rw [skipDup, if_neg h1, if_neg h2, if_pos h3] at h
            cases h
          · rw [skipDup, if_neg h1, if_neg h2, if_neg h3] at h
            rcases ih h with ⟨k, hk, hrest, htake⟩
            have her : e = r := by
              cases e; cases r
              simp only [not_not] at h1 h2 h3
              simp_all
            refine ⟨k + 1, by simpa using Nat.succ_le_succ hk, ?_, ?_⟩
            · simpa using hrest
            · simp [List.take_succ_cons, her, htake]

/-! ## Extensionality and coverage -/

theorem pairwise_ext {s : List Entry} :
    ∀ {t : List Entry}, s.Pairwise idxLt → t.Pairwise idxLt →
      (∀ i, getE s i = getE t i) → s = t := by
  induction s with
  | nil =>
    intro t _ ht h
    cases t with
    | nil => rfl
    | cons y ys =>
      have := h y.index
      rw [getE_nil, getE_cons, if_pos rfl] at this
      cases this
  | cons x xs ih =>
    intro t hs ht h
    cases t with
    | nil =>
      have := h x.index
      rw [getE_nil, getE_cons, if_pos rfl] at this
      cases this
    | cons y ys =>
      have hxy : x = y := by
        have h1 := h x.index
        rw [getE_cons, if_pos rfl, getE_cons] at h1
        have h2 := h y.index
        rw [getE_cons (x := y), if_pos rfl, getE_cons] at h2
        by_cases hyx : y.index = x.index
        · rw [if_pos hyx] at h1
          exact Option.some_inj.mp h1
        · rw [if_neg hyx] at h1
          have hmemx : x ∈ ys := mem_of_getE h1.symm
          have hlt1 : y.index < x.index :=
            (List.pairwise_cons.mp ht).1 x hmemx
          have hxyne : ¬ x.index = y.index := fun hh => hyx hh.symm
          rw [if_neg hxyne] at h2
          have hmemy : y ∈ xs := mem_of_getE h2
          have hlt2 : x.index < y.index :=
            (List.pairwise_cons.mp hs).1 y hmemy
          omega
      subst hxy
      have htails : ∀ i, getE xs i = getE ys i := by
        intro i
        by_cases hi : x.index = i
        · subst hi
          rw [getE_eq_none_of_all_ne
              (fun e he => Nat.ne_of_gt ((List.pairwise_cons.mp hs).1 e he)),
            getE_eq_none_of_all_ne
              (fun e he => Nat.ne_of_gt ((List.pairwise_cons.mp ht).1 e he))]
        · have := h i
          rw [getE_cons, if_neg hi, getE_cons, if_neg hi] at this
          exact this
      exact congrArg _ (ih (List.pairwise_cons.mp hs).2 (List.pairwise_cons.mp ht).2 htails)

theorem contiguousB_coverage {es : List Entry} (h : contiguousB es = true) :
    ∀ {first last : Entry}, es.head? = some first → es.getLast? = some last →
      ∀ i, first.index ≤ i → i ≤ last.index → ∃ e ∈ es, e.index = i := by
  induction es with
  | nil => intro first last hf _ _ _ _; cases hf
  | cons x xs ih =>
    intro first last hf hl i h1 h2
    have hx : x = first := by simpa using hf
    subst hx
    by_cases hi : x.index = i
    · exact ⟨x, by simp, hi⟩
    · have hlt : x.index < i := Nat.lt_of_le_of_ne h1 hi
      cases xs with
      | nil =>
        have hlx : x = last := by simpa using hl
        subst hlx; omega
      | cons y ys =>
        have hxy : x.index + 1 = y.index := by
          simpa using (Bool.and_eq_true_iff.mp h).1
        rw [List.getLast?_cons_cons] at hl
        rcases ih (contiguousB_tail h) rfl hl i (by omega) h2 with ⟨e, he, hei⟩
        exact ⟨e, List.mem_cons_of_mem x he, hei⟩

/-! ## Claim theorems -/

/-- Claim C5: for every log state with current term > 0, `append c` returns
`last_index + 1`, and afterwards `get` at the returned index yields an entry
whose term is the current term and whose command is `c`, with
`last_index`/`last_term` updated to the new entry's index and term. -/
theorem claim_append_monotonicity (l : Log) (c : Option (List Nat))
    (h : 0 < l.term) :
    ∃ l' ops, l.append c = some (l.last_index + 1, l', ops) ∧
      l'.get (l.last_index + 1) = some ⟨l.last_index + 1, l.term, c⟩ ∧
      l'.last_index = l.last_index + 1 ∧ l'.last_term = l.term := by
  rw [Log.append, if_neg (Nat.pos_iff_ne_zero.mp h)]
  exact ⟨_, _, rfl, getE_setE_self l.engine.entries ⟨l.last_index + 1, l.term, c⟩,
    rfl, rfl⟩

/-- Claim C5 witness: appending to a concrete one-entry log in term 2. -/
theorem claim_append_monotonicity_witness :
    ∃ l' ops,
      (Log.new ⟨[⟨1, 1, none⟩], some (2, some 1), none⟩).append (some [7]) =
        some (2, l', ops) ∧
      l'.get 2 = some ⟨2, 2, some [7]⟩ ∧ l'.last_index = 2 ∧ l'.last_term = 2 :=
  claim_append_monotonicity (Log.new ⟨[⟨1, 1, none⟩], some (2, some 1), none⟩)
    (some [7]) (by decide)

/-- Claim C7: a successful `set_term_vote (term, vote)` call is a no-op with
no engine operations when `(term, vote)` equals the current pair; otherwise it
writes the `TermVote` key and flushes unconditionally — the trace is always
`[set TermVote, flush]` irrespective of the `fsync` flag — and updates the
cached term and vote. -/
theorem claim_set_term_vote_durability (l : Log) (term : Nat)
    (vote : Option Nat) (r : Log × List EngineOp)
    (h : l.set_term_vote term vote = some r) :
    (term = l.term ∧ vote = l.vote → r = (l, [])) ∧
    (¬ (term = l.term ∧ vote = l.vote) →
      r.2 = [EngineOp.set Key.termVote, EngineOp.flush] ∧
      r.1.term = term ∧ r.1.vote = vote ∧
      r.1.engine.termVote = some (term, vote) ∧
      r.1.engine.entries = l.engine.entries ∧
      r.1.engine.commitIdx = l.engine.commitIdx ∧
      r.1.fsync = l.fsync) := by
  rw [Log.set_term_vote] at h
  split_ifs at h with h1 h2 h3 h4
  · cases (Option.some_inj.mp h).symm
    exact ⟨fun _ => rfl, fun hc => absurd h4 hc⟩
  · cases (Option.some_inj.mp h).symm
    exact ⟨fun hc => absurd hc h4, fun _ => ⟨rfl, rfl, rfl, rfl, rfl, rfl, rfl⟩⟩

/-- Claim C7 witness: with fsync disabled, `set_term_vote 3 (some 4)` still
produces a set of `TermVote` followed by a flush. -/
theorem claim_set_term_vote_durability_witness :
    ((Log.new ⟨[], none, none⟩).enable_fsync false).fsync = false ∧
    ∃ r, ((Log.new ⟨[], none, none⟩).enable_fsync false).set_term_vote 3 (some 4) =
        some r ∧
      r.2 = [EngineOp.set Key.termVote, EngineOp.flush] ∧ r.1.fsync = false := by
  have h : ((Log.new ⟨[], none, none⟩).enable_fsync false).set_term_vote 3 (some 4) =
      some (⟨⟨[], some (3, some 4), none⟩, 3, some 4, 0, 0, 0, 0, false⟩,
        [EngineOp.set Key.termVote, EngineOp.flush]) := by decide
  have hc := (claim_set_term_vote_durability _ 3 (some 4) _ h).2 (by decide)
  exact ⟨rfl, _, h, hc.1, rfl⟩

/-- Claim C6: `commit index` is fatal when no entry exists at `index` or when
`index` is below the commit index; a no-op returning `index` at the current
commit index; otherwise it writes `CommitIndex = (index, term of the entry)`,
updates the cached commit index/term, and returns `index` — with a trace of a
single set and no flush. -/
theorem claim_commit_contract (l : Log) (index : Nat) :
    (l.get index = none → l.commit index = none) ∧
    (l.get index ≠ none → index < l.commit_index → l.commit index = none) ∧
    (l.get index ≠ none → index = l.commit_index →
      l.commit index = some (index, l, [])) ∧
    (∀ e, l.get index = some e → l.commit_index < index →
      ∃ l', l.commit index = some (index, l', [EngineOp.set Key.commitIndex]) ∧
        l'.commit_index = index ∧ l'.commit_term = e.term ∧
        l'.engine.commitIdx = some (index, e.term) ∧
        l'.engine.entries = l.engine.entries ∧
        l'.engine.termVote = l.engine.termVote ∧
        l'.term = l.term ∧ l'.vote = l.vote ∧
        l'.last_index = l.last_index ∧ l'.last_term = l.last_term) := by
  refine ⟨?_, ?_, ?_, ?_⟩
  · intro hg
    simp only [Log.commit, hg]
  · intro hg hlt
    rcases Option.ne_none_iff_exists'.mp hg with ⟨e, he⟩
    have hei : e.index = index := index_of_getE he
    simp only [Log.commit, he]
    rw [if_pos (by rw [hei]; exact hlt)]
  · intro hg heq
    rcases Option.ne_none_iff_exists'.mp hg with ⟨e, he⟩
    have hei : e.index = index := index_of_getE he
    simp only [Log.commit, he]
    rw [if_neg (by rw [hei, heq]; exact Nat.lt_irrefl _), if_pos (by rw [hei, heq])]
  · intro e he hlt
    have hei : e.index = index := index_of_getE he
    simp only [Log.commit, he]
    rw [if_neg (by rw [hei]; exact Nat.not_lt_of_lt hlt),
      if_neg (by rw [hei]; exact Nat.ne_of_gt hlt)]
    exact ⟨_, rfl, rfl, rfl, rfl, rfl, rfl, rfl, rfl, rfl, rfl⟩

/-- Claim C6 witness: committing index 1 on a concrete one-entry log writes
`CommitIndex = (1, 1)` without flushing. -/
theorem claim_commit_contract_witness :
    ∃ l', (Log.new ⟨[⟨1, 1, none⟩], some (1, none), none⟩).commit 1 =
        some (1, l', [EngineOp.set Key.commitIndex]) ∧
      l'.commit_index = 1 ∧ l'.commit_term = 1 := by
  rcases (claim_commit_contract (Log.new ⟨[⟨1, 1, none⟩], some (1, none), none⟩) 1).2.2.2
      ⟨1, 1, none⟩ (by decide) (by decide) with ⟨l', h1, h2, h3, _⟩
  exact ⟨l', h1, h2, h3⟩

/-! ## Operation frame lemmas -/

theorem append_frame {l : Log} {c : Option (List Nat)}
    {r : Nat × Log × List EngineOp} (h : l.append c = some r) :
    r.2.1.term = l.term ∧ r.2.1.vote = l.vote ∧
    r.2.1.commit_index = l.commit_index ∧ r.2.1.commit_term = l.commit_term ∧
    r.2.1.engine.termVote = l.engine.termVote ∧
    r.2.1.engine.commitIdx = l.engine.commitIdx ∧ r.2.1.fsync = l.fsync ∧
    r.2.1.engine.entries = setE l.engine.entries ⟨l.last_index + 1, l.term, c⟩ ∧
    r.2.2 = EngineOp.set (Key.entry (l.last_index + 1)) ::
      (if l.fsync then [EngineOp.flush] else []) := by
  rw [Log.append] at h
  by_cases ht : l.term = 0
  · rw [if_pos ht] at h; exact Option.noConfusion h
  · rw [if_neg ht, Option.some_inj] at h
    subst h
    exact ⟨rfl, rfl, rfl, rfl, rfl, rfl, rfl, rfl, rfl⟩

theorem commit_frame {l : Log} {i : Nat} {r : Nat × Log × List EngineOp}
    (h : l.commit i = some r) :
    r.2.1.term = l.term ∧ r.2.1.vote = l.vote ∧
    r.2.1.last_index = l.last_index ∧ r.2.1.last_term = l.last_term ∧
    r.2.1.engine.entries = l.engine.entries ∧
    r.2.1.engine.termVote = l.engine.termVote ∧ r.2.1.fsync = l.fsync ∧
    l.commit_index ≤ r.2.1.commit_index ∧
    (∀ o ∈ r.2.2, o = EngineOp.set Key.commitIndex) := by
  cases hg : l.get i with
  | none => rw [Log.commit, hg] at h; exact Option.noConfusion h
  | some e =>
    have hei : e.index = i := index_of_getE hg
    simp only [Log.commit, hg] at h
    by_cases h1 : e.index < l.commit_index
    · rw [if_pos h1] at h; exact Option.noConfusion h
    · rw [if_neg h1] at h
      by_cases h2 : e.index = l.commit_index
      · rw [if_pos h2, Option.some_inj] at h
        subst h
        exact ⟨rfl, rfl, rfl, rfl, rfl, rfl, rfl, Nat.le_refl _, by simp⟩
      · rw [if_neg h2, Option.some_inj] at h
        subst h
        refine ⟨rfl, rfl, rfl, rfl, rfl, rfl, rfl, ?_, by simp⟩
        show l.commit_index ≤ i
        omega

theorem set_term_vote_frame {l : Log} {t : Nat} {v : Option Nat}
    {r : Log × List EngineOp} (h : l.set_term_vote t v = some r) :
    l.term ≤ r.1.term ∧
    (r.1.term = l.term → ∀ n, l.vote = some n → r.1.vote = some n) ∧
    r.1.engine.entries = l.engine.entries ∧
    r.1.engine.commitIdx = l.engine.commitIdx ∧
    r.1.last_index = l.last_index ∧ r.1.last_term = l.last_term ∧
    r.1.commit_index = l.commit_index ∧ r.1.commit_term = l.commit_term ∧
    r.1.fsync = l.fsync ∧
    (∀ o ∈ r.2, o = EngineOp.set Key.termVote ∨ o = EngineOp.flush) := by
  rw [Log.set_term_vote] at h
  split_ifs at h with h1 h2 h3 h4
  · rw [Option.some_inj] at h
    subst h
    exact ⟨Nat.le_refl _, fun _ n hn => h4.2 ▸ hn, rfl, rfl, rfl, rfl, rfl, rfl,
      rfl, by simp⟩
  · rw [Option.some_inj] at h
    subst h
    refine ⟨Nat.le_of_not_lt h2, ?_, rfl, rfl, rfl, rfl, rfl, rfl, rfl, by simp⟩
    intro ht n hn
    show v = some n
    rcases h3 with hlt | hnone | heqv
    · exact absurd ht.symm (Nat.ne_of_lt hlt)
    · rw [hn] at hnone; exact Option.noConfusion hnone
    · rw [heqv, hn]

theorem spliceWrite_cases {l : Log} {es : List Entry} {first last : Entry}
    {r : Nat × Log × List EngineOp}
    (h : spliceWrite l es first last = some r) :
    (skipDup (scanRange first.index last.index l.engine.entries) es = some [] ∧
      r = (l.last_index, l, [])) ∨
    (∃ f rs,
      skipDup (scanRange first.index last.index l.engine.entries) es =
        some (f :: rs) ∧
      l.commit_index < f.index ∧ r = spliceApply l (f :: rs) last) := by
  cases hsd : skipDup (scanRange first.index last.index l.engine.entries) es with
  | none => rw [spliceWrite, hsd] at h; exact Option.noConfusion h
  | some rest =>
    cases rest with
    | nil =>
      simp only [spliceWrite, hsd, Option.some_inj] at h
      exact Or.inl ⟨rfl, h.symm⟩
    | cons f rs =>
      simp only [spliceWrite, hsd] at h
      by_cases hc : f.index ≤ l.commit_index
      · rw [if_pos hc] at h; exact Option.noConfusion h
      · rw [if_neg hc, Option.some_inj] at h
        exact Or.inr ⟨f, rs, rfl, Nat.lt_of_not_le hc, h.symm⟩

theorem splice_cases {l : Log} {es : List Entry}
    {r : Nat × Log × List EngineOp} (h : l.splice es = some r) :
    (es = [] ∧ r = (l.last_index, l, [])) ∨
    (∃ first last, es.head? = some first ∧ es.getLast? = some last ∧
      ¬ (first.index = 0 ∨ first.term = 0) ∧ contiguousB es = true ∧
      termsNonDecB es = true ∧ ¬ l.term < last.term ∧ baseOK l first = true ∧
      spliceWrite l es first last = some r) := by
  cases es with
  | nil =>
    simp only [Log.splice, List.head?_nil, List.getLast?_nil, Option.some_inj] at h
    exact Or.inl ⟨rfl, h.symm⟩
  | cons e0 tl =>
    rcases Option.isSome_iff_exists.mp
        (List.getLast?_isSome.mpr (List.cons_ne_nil e0 tl)) with ⟨last, hl⟩
    rw [Log.splice] at h
    simp only [List.head?_cons, hl] at h
    by_cases h1 : e0.index = 0 ∨ e0.term = 0
    · rw [if_pos h1] at h; exact Option.noConfusion h
    · rw [if_neg h1] at h
      by_cases h2 : contiguousB (e0 :: tl) = true
      · rw [if_neg (not_not_intro h2)] at h
        by_cases h3 : termsNonDecB (e0 :: tl) = true
        · rw [if_neg (not_not_intro h3)] at h
          by_cases h4 : l.term < last.term
          · rw [if_pos h4] at h; exact Option.noConfusion h
          · rw [if_neg h4] at h
            by_cases h5 : baseOK l e0 = true
            · rw [if_neg (not_not_intro h5)] at h
              exact Or.inr ⟨e0, last, rfl, hl, h1, h2, h3, h4, h5, h⟩
            · rw [if_pos h5] at h; exact Option.noConfusion h
        · rw [if_pos h3] at h; exact Option.noConfusion h
      · rw [if_pos h2] at h; exact Option.noConfusion h

/-! ## Effect of the splice writing phase on the entry store -/

theorem mem_spliceDels {l : Log} {last : Entry} {j : Nat} :
    j ∈ spliceDels l last ↔ last.index < j ∧ j ≤ l.last_index := by
  rw [spliceDels, List.mem_range'_1]
  omega

theorem spliceApply_entries (l : Log) (rest : List Entry) (last : Entry) :
    (spliceApply l rest last).2.1.engine.entries =
      (spliceDels l last).foldl delE (rest.foldl setE l.engine.entries) := rfl

theorem spliceApply_getE_mem {l : Log} {rest : List Entry} {last : Entry}
    (hp : rest.Pairwise idxLt) (hle : ∀ e ∈ rest, e.index ≤ last.index)
    {e : Entry} (he : e ∈ rest) :
    getE (spliceApply l rest last).2.1.engine.entries e.index = some e := by
  rw [spliceApply_entries,
    getE_foldl_delE_of_not_mem
      (fun hmem => Nat.not_le_of_lt (mem_spliceDels.mp hmem).1 (hle e he))]
  exact getE_foldl_setE_of_mem hp he

theorem spliceApply_getE_del {l : Log} {rest : List Entry} {last : Entry}
    {j : Nat} (h1 : last.index < j) (h2 : j ≤ l.last_index) :
    getE (spliceApply l rest last).2.1.engine.entries j = none := by
  rw [spliceApply_entries]
  exact getE_foldl_delE_of_mem (mem_spliceDels.mpr ⟨h1, h2⟩)

theorem spliceApply_getE_other {l : Log} {rest : List Entry} {last : Entry}
    {j : Nat} (hrest : ∀ e ∈ rest, e.index ≠ j)
    (hdel : j ≤ last.index ∨ l.last_index < j) :
    getE (spliceApply l rest last).2.1.engine.entries j =
      getE l.engine.entries j := by
  rw [spliceApply_entries,
    getE_foldl_delE_of_not_mem
      (fun hmem => by rcases mem_spliceDels.mp hmem with ⟨ha, hb⟩; omega),
    getE_foldl_setE_of_all_ne hrest]

/-- Claim C1: a successful `splice entries` call that writes (its trace is
nonempty, i.e. at least one input entry was not already stored) stores every
remaining input entry at its index — the remainder being exactly the output
of the duplicate-skipping loop (`skipDup`), a nonempty suffix of the input —
deletes every previously stored entry with index in
`(last.index, last_index]`, and updates `last_index`/`last_term` to the last
input entry's index and term, which it returns. -/
theorem claim_splice_write_spec (l : Log) (entries : List Entry) (ret : Nat)
    (l' : Log) (tr : List EngineOp)
    (hs : l.splice entries = some (ret, l', tr)) (hw : tr ≠ []) :
    ∃ first last rest,
      entries.head? = some first ∧ entries.getLast? = some last ∧
      skipDup (scanRange first.index last.index l.engine.entries) entries =
        some rest ∧
      rest ≠ [] ∧ rest.IsSuffix entries ∧
      (∀ e ∈ rest, l'.get e.index = some e) ∧
      (∀ j, last.index < j → j ≤ l.last_index → l'.get j = none) ∧
      ret = last.index ∧ l'.last_index = last.index ∧
      l'.last_term = last.term := by
  rcases splice_cases hs with ⟨hnil, hr⟩ | ⟨first, last, hh, hl, h0, hc, hnd, ht, hb, hsw⟩
  · rw [Prod.mk.injEq, Prod.mk.injEq] at hr
    exact absurd hr.2.2 hw
  · rcases spliceWrite_cases hsw with ⟨hsd, hr⟩ | ⟨f, rs, hsd, hcm, hr⟩
    · rw [Prod.mk.injEq, Prod.mk.injEq] at hr
      exact absurd hr.2.2 hw
    · rcases skipDup_spec hsd with ⟨k, hk, hdrop, htake⟩
      have h2 : l' = (spliceApply l (f :: rs) last).2.1 :=
        congrArg (fun p => p.2.1) hr
      have hsuf : (f :: rs).IsSuffix entries :=
        ⟨entries.take k, by rw [hdrop, List.take_append_drop]⟩
      have hp : (f :: rs).Pairwise idxLt := by
        rw [hdrop]
        exact contiguousB_pairwise (contiguousB_drop hc k)
      have hle : ∀ e ∈ f :: rs, e.index ≤ last.index := fun e he =>
        contiguousB_mem_le_last hc hl e (hsuf.sublist.mem he)
      refine ⟨first, last, f :: rs, hh, hl, hsd, by simp, hsuf, ?_, ?_,
        congrArg Prod.fst hr, by rw [h2]; rfl, by rw [h2]; rfl⟩
      · intro e he
        rw [h2]
        exact spliceApply_getE_mem hp hle he
      · intro j hj1 hj2
        rw [h2]
        exact spliceApply_getE_del hj1 hj2

/-- The conflict-truncation state of spec scenario 3: entries 1@1, 2@1, 3@2
in term 2, nothing committed. -/
def exLog3 : Log :=
  ⟨⟨[⟨1, 1, none⟩, ⟨2, 1, some [120]⟩, ⟨3, 2, some [121]⟩],
    some (2, none), none⟩, 2, none, 3, 2, 0, 0, true⟩

/-- The conflicting input of spec scenario 3. -/
def exEs3 : List Entry := [⟨2, 2, some [122]⟩, ⟨3, 2, some [119]⟩]

/-- The log state after the scenario-3 splice. -/
def exLog3' : Log :=
  ⟨⟨[⟨1, 1, none⟩, ⟨2, 2, some [122]⟩, ⟨3, 2, some [119]⟩],
    some (2, none), none⟩, 2, none, 3, 2, 0, 0, true⟩

/-- Claim C1 witness: the scenario-3 conflict splice finds both input
entries non-duplicate, rewrites indexes 2 and 3, and returns 3. -/
theorem claim_splice_write_spec_witness :
    ∃ first last rest,
      exEs3.head? = some first ∧ exEs3.getLast? = some last ∧
      skipDup (scanRange first.index last.index exLog3.engine.entries) exEs3 =
        some rest ∧
      rest ≠ [] ∧ rest.IsSuffix exEs3 ∧
      (∀ e ∈ rest, exLog3'.get e.index = some e) ∧
      (∀ j, last.index < j → j ≤ exLog3.last_index → exLog3'.get j = none) ∧
      3 = last.index ∧ exLog3'.last_index = last.index ∧
      exLog3'.last_term = last.term :=
  claim_splice_write_spec exLog3 exEs3 3 exLog3'
    [EngineOp.set (Key.entry 2), EngineOp.set (Key.entry 3), EngineOp.flush]
    (by decide) (by decide)

theorem spliceApply_trace (l : Log) (rest : List Entry) (last : Entry) :
    (spliceApply l rest last).2.2 =
      rest.map (fun e => EngineOp.set (Key.entry e.index)) ++
        (spliceDels l last).map (fun i => EngineOp.del (Key.entry i)) ++
        (if l.fsync then [EngineOp.flush] else []) := rfl

/-- Claim C10: each mutating operation touches only its own key family:
`append` and `splice` set or delete only `Entry` keys (plus flushes); `commit`
sets only the `CommitIndex` key; `set_term_vote` sets only the `TermVote` key
(plus its flush). The read operations `get`, `has`, `scan` and `scan_apply`
are embedded as pure functions of the log state and perform no writes. -/
theorem claim_key_family_isolation :
    (∀ (l : Log) (c : Option (List Nat)) (r : Nat × Log × List EngineOp),
      l.append c = some r → ∀ o ∈ r.2.2,
        (∃ i, o = EngineOp.set (Key.entry i)) ∨ o = EngineOp.flush) ∧
    (∀ (l : Log) (es : List Entry) (r : Nat × Log × List EngineOp),
      l.splice es = some r → ∀ o ∈ r.2.2,
        (∃ i, o = EngineOp.set (Key.entry i)) ∨
        (∃ i, o = EngineOp.del (Key.entry i)) ∨ o = EngineOp.flush) ∧
    (∀ (l : Log) (i : Nat) (r : Nat × Log × List EngineOp),
      l.commit i = some r → ∀ o ∈ r.2.2, o = EngineOp.set Key.commitIndex) ∧
    (∀ (l : Log) (t : Nat) (v : Option Nat) (r : Log × List EngineOp),
      l.set_term_vote t v = some r → ∀ o ∈ r.2,
        o = EngineOp.set Key.termVote ∨ o = EngineOp.flush) := by
  refine ⟨?_, ?_, ?_, ?_⟩
  · intro l c r h o ho
    rw [(append_frame h).2.2.2.2.2.2.2.2] at ho
    rcases List.mem_cons.mp ho with heq | ho
    · exact Or.inl ⟨l.last_index + 1, heq⟩
    · right
      by_cases hf : l.fsync
      · rw [if_pos hf] at ho
        simpa using ho
      · rw [if_neg hf] at ho
        cases ho
  · intro l es r h o ho
    rcases splice_cases h with ⟨_, hr⟩ | ⟨first, last, _, _, _, _, _, _, _, hsw⟩
    · rw [hr] at ho
      cases ho
    · rcases spliceWrite_cases hsw with ⟨_, hr⟩ | ⟨f, rs, _, _, hr⟩
      · rw [hr] at ho
        cases ho
      · rw [hr, spliceApply_trace] at ho
        rcases List.mem_append.mp ho with ho | ho
        · rcases List.mem_append.mp ho with ho | ho
          · rcases List.mem_map.mp ho with ⟨e, _, heq⟩
            exact Or.inl ⟨e.index, heq.symm⟩
          · rcases List.mem_map.mp ho with ⟨j, _, heq⟩
            exact Or.inr (Or.inl ⟨j, heq.symm⟩)
        · right; right
          by_cases hf : l.fsync
          · rw [if_pos hf] at ho
            simpa using ho
          · rw [if_neg hf] at ho
            cases ho
  · intro l i r h
    exact (commit_frame h).2.2.2.2.2.2.2.2
  · intro l t v r h
    exact (set_term_vote_frame h).2.2.2.2.2.2.2.2.2

/-- Claim C10 witness: the scenario-3 splice trace consists of entry sets and
a flush only, and a concrete commit trace is a single `CommitIndex` set. -/
theorem claim_key_family_isolation_witness :
    (∀ o ∈ [EngineOp.set (Key.entry 2), EngineOp.set (Key.entry 3),
        EngineOp.flush],
      (∃ i, o = EngineOp.set (Key.entry i)) ∨
      (∃ i, o = EngineOp.del (Key.entry i)) ∨ o = EngineOp.flush) ∧
    (∀ o ∈ [EngineOp.set Key.commitIndex], o = EngineOp.set Key.commitIndex) := by
  constructor
  · have hs : exLog3.splice exEs3 = some (3, exLog3',
        [EngineOp.set (Key.entry 2), EngineOp.set (Key.entry 3),
          EngineOp.flush]) := by decide
    exact claim_key_family_isolation.2.1 exLog3 exEs3 _ hs
  · have hc : (Log.new ⟨[⟨1, 1, none⟩], some (1, none), none⟩).commit 1 =
        some (1, Log.new ⟨[⟨1, 1, none⟩], some (1, none), some (1, 1)⟩,
          [EngineOp.set Key.commitIndex]) := by decide
    exact claim_key_family_isolation.2.2.1 _ 1 _ hc

/-! ## Term and vote monotonicity -/

theorem splice_term_vote {l : Log} {es : List Entry}
    {r : Nat × Log × List EngineOp} (h : l.splice es = some r) :
    r.2.1.term = l.term ∧ r.2.1.vote = l.vote := by
  rcases splice_cases h with ⟨_, hr⟩ | ⟨first, last, _, _, _, _, _, _, _, hsw⟩
  · rw [hr]; exact ⟨rfl, rfl⟩
  · rcases spliceWrite_cases hsw with ⟨_, hr⟩ | ⟨f, rs, _, _, hr⟩
    · rw [hr]; exact ⟨rfl, rfl⟩
    · rw [hr]; exact ⟨rfl, rfl⟩

theorem applyOp_term_vote {l : Log} {op : LogOp} {r : Log × List EngineOp}
    (h : applyOp l op = some r) :
    l.term ≤ r.1.term ∧
    (r.1.term = l.term → ∀ n, l.vote = some n → r.1.vote = some n) := by
  cases op with
  | append c =>
    cases ha : l.append c with
    | none => rw [applyOp, ha] at h; exact Option.noConfusion h
    | some a =>
      rw [applyOp, ha, Option.map_some', Option.some_inj] at h
      have hf := append_frame ha
      rw [← h]
      exact ⟨Nat.le_of_eq hf.1.symm, fun _ n hn => by rw [hf.2.1]; exact hn⟩
  | commit i =>
    cases ha : l.commit i with
    | none => rw [applyOp, ha] at h; exact Option.noConfusion h
    | some a =>
      rw [applyOp, ha, Option.map_some', Option.some_inj] at h
      have hf := commit_frame ha
      rw [← h]
      exact ⟨Nat.le_of_eq hf.1.symm, fun _ n hn => by rw [hf.2.1]; exact hn⟩
  | set_term_vote t v =>
    have hf := set_term_vote_frame (h : l.set_term_vote t v = some r)
    exact ⟨hf.1, hf.2.1⟩
  | splice es =>
    cases ha : l.splice es with
    | none => rw [applyOp, ha] at h; exact Option.noConfusion h
    | some a =>
      rw [applyOp, ha, Option.map_some', Option.some_inj] at h
      have hf := splice_term_vote ha
      rw [← h]
      exact ⟨Nat.le_of_eq hf.1.symm, fun _ n hn => by rw [hf.2]; exact hn⟩
  | enable_fsync b =>
    rw [applyOp, Option.some_inj] at h
    rw [← h]
    exact ⟨Nat.le_refl _, fun _ n hn => hn⟩

theorem applySeq_term_vote {ops : List LogOp} :
    ∀ {l l' : Log}, applySeq l ops = some l' →
      l.term ≤ l'.term ∧
      (l'.term = l.term → ∀ n, l.vote = some n → l'.vote = some n) := by
  induction ops with
  | nil =>
    intro l l' h
    rw [applySeq, Option.some_inj] at h
    subst h
    exact ⟨Nat.le_refl _, fun _ n hn => hn⟩
  | cons op rest ih =>
    intro l l' h
    rw [applySeq] at h
    cases ha : applyOp l op with
    | none => rw [ha] at h; exact Option.noConfusion h
    | some a =>
      rw [ha] at h
      have h1 := applyOp_term_vote ha
      have h2 := ih h
      refine ⟨Nat.le_trans h1.1 h2.1, ?_⟩
      intro heq n hn
      have hmid : a.1.term = l.term := by omega
      exact h2.2 (by omega) n (h1.2 hmid n hn)

/-- Claim C8: across every successful operation sequence the cached term
never decreases, and within an unchanged term a cast vote never changes;
moreover `set_term_vote` is fatal on term 0, on term regression, and on an
attempt to change an existing vote within the current term. -/
theorem claim_term_vote_safety (l : Log) :
    (∀ ops l', applySeq l ops = some l' →
      l.term ≤ l'.term ∧
      (l'.term = l.term → ∀ n, l.vote = some n → l'.vote = some n)) ∧
    (∀ t v, t = 0 ∨ t < l.term ∨
        (t = l.term ∧ ∃ n, l.vote = some n ∧ v ≠ some n) →
      l.set_term_vote t v = none) := by
  refine ⟨fun ops l' h => applySeq_term_vote h, ?_⟩
  intro t v hv
  rw [Log.set_term_vote]
  rcases hv with h0 | hlt | ⟨heq, n, hn, hne⟩
  · rw [if_pos h0]
  · by_cases h0 : t = 0
    · rw [if_pos h0]
    · rw [if_neg h0, if_pos hlt]
  · by_cases h0 : t = 0
    · rw [if_pos h0]
    · rw [if_neg h0, if_neg (show ¬ t < l.term by omega)]
      rw [if_pos]
      intro hor
      rcases hor with hlt2 | hnone | heqv
      · omega
      · rw [hn] at hnone
        exact Option.noConfusion hnone
      · rw [hn] at heqv
        exact hne heqv

/-- Claim C8 witness: on a log in term 2 voted for node 1, appending keeps
term and vote, and changing the vote within term 2 is fatal. -/
theorem claim_term_vote_safety_witness :
    (∃ l', applySeq (Log.new ⟨[], some (2, some 1), none⟩) [LogOp.append none] =
        some l' ∧
      (Log.new ⟨[], some (2, some 1), none⟩).term ≤ l'.term ∧
      (l'.term = (Log.new ⟨[], some (2, some 1), none⟩).term → ∀ n,
        (Log.new ⟨[], some (2, some 1), none⟩).vote = some n →
        l'.vote = some n)) ∧
    (Log.new ⟨[], some (2, some 1), none⟩).set_term_vote 2 (some 3) = none := by
  refine ⟨⟨⟨⟨[⟨1, 2, none⟩], some (2, some 1), none⟩, 2, some 1, 1, 2, 0, 0, true⟩,
    by decide, ?_⟩, ?_⟩
  · exact (claim_term_vote_safety _).1 [LogOp.append none] _ (by decide)
  · exact (claim_term_vote_safety _).2 2 (some 3)
      (Or.inr (Or.inr ⟨rfl, 1, rfl, by decide⟩))

/-! ## Commit immutability -/

theorem applyOp_commit_immutable {l : Log} {op : LogOp} {r : Log × List EngineOp}
    (hcl : l.commit_index ≤ l.last_index) (h : applyOp l op = some r) :
    ∀ i, i ≤ l.commit_index → r.1.get i = l.get i := by
  intro i hi
  cases op with
  | append c =>
    cases ha : l.append c with
    | none => rw [applyOp, ha] at h; exact Option.noConfusion h
    | some a =>
      rw [applyOp, ha, Option.map_some', Option.some_inj] at h
      rw [← h]
      show a.2.1.get i = l.get i
      rw [Log.get, Log.get, (append_frame ha).2.2.2.2.2.2.2.1]
      exact getE_setE_ne l.engine.entries _ (by show i ≠ l.last_index + 1; omega)
  | commit j =>
    cases ha : l.commit j with
    | none => rw [applyOp, ha] at h; exact Option.noConfusion h
    | some a =>
      rw [applyOp, ha, Option.map_some', Option.some_inj] at h
      rw [← h]
      show a.2.1.get i = l.get i
      rw [Log.get, Log.get, (commit_frame ha).2.2.2.2.1]
  | set_term_vote t v =>
    have hf := set_term_vote_frame (h : l.set_term_vote t v = some r)
    rw [Log.get, Log.get, hf.2.2.1]
  | splice es =>
    cases ha : l.splice es with
    | none => rw [applyOp, ha] at h; exact Option.noConfusion h
    | some a =>
      rw [applyOp, ha, Option.map_some', Option.some_inj] at h
      rw [← h]
      show a.2.1.get i = l.get i
      rcases splice_cases ha with ⟨_, hr⟩ | ⟨first, last, hh, hl, h0, hc, hnd, ht, hb, hsw⟩
      · rw [hr]
      · rcases spliceWrite_cases hsw with ⟨_, hr⟩ | ⟨f, rs, hsd, hcm, hr⟩
        · rw [hr]
        · rcases skipDup_spec hsd with ⟨k, hk, hdrop, _⟩
          have hcf : contiguousB (f :: rs) = true := by
            rw [hdrop]; exact contiguousB_drop hc k
          have hfes : f ∈ es := by
            have : f ∈ f :: rs := by simp
            rw [hdrop] at this
            exact (List.drop_sublist k es).mem this
          have hfle : f.index ≤ last.index := contiguousB_mem_le_last hc hl f hfes
          rw [hr]
          show (spliceApply l (f :: rs) last).2.1.get i = l.get i
          rw [Log.get, Log.get]
          refine spliceApply_getE_other ?_ (Or.inl (by omega))
          intro e he
          have := contiguousB_head_le_mem hcf rfl e he
          omega
  | enable_fsync b =>
    rw [applyOp, Option.some_inj] at h
    rw [← h]
    rfl

theorem splice_below_commit_aborts {l : Log} {es : List Entry}
    {first last f : Entry} {rs : List Entry}
    (hh : es.head? = some first) (hl : es.getLast? = some last)
    (h0 : ¬ (first.index = 0 ∨ first.term = 0)) (hc : contiguousB es = true)
    (hnd : termsNonDecB es = true) (ht : ¬ l.term < last.term)
    (hb : baseOK l first = true)
    (hsd : skipDup (scanRange first.index last.index l.engine.entries) es =
      some (f :: rs))
    (hle : f.index ≤ l.commit_index) : l.splice es = none := by
  cases es with
  | nil => exact Option.noConfusion hh
  | cons e0 tl =>
    have he0 : e0 = first := by simpa using hh
    subst he0
    rw [Log.splice]
    simp only [List.head?_cons, hl]
    rw [if_neg h0, if_neg (not_not_intro hc), if_neg (not_not_intro hnd),
      if_neg ht, if_neg (not_not_intro hb)]
    rw [spliceWrite, hsd]
    simp only [if_pos hle]

/-- Claim C2: no successful operation changes a stored entry at an index at
or below the commit index (in any state where the commit index does not
exceed the last index), and a splice whose first non-duplicate entry is at or
below the commit index is fatal, producing no result and hence no writes. -/
theorem claim_commit_immutability :
    (∀ (l : Log) (op : LogOp) (r : Log × List EngineOp),
      l.commit_index ≤ l.last_index → applyOp l op = some r →
      ∀ i, i ≤ l.commit_index → r.1.get i = l.get i) ∧
    (∀ (l : Log) (es : List Entry) (first last f : Entry) (rs : List Entry),
      es.head? = some first → es.getLast? = some last →
      ¬ (first.index = 0 ∨ first.term = 0) → contiguousB es = true →
      termsNonDecB es = true → ¬ l.term < last.term → baseOK l first = true →
      skipDup (scanRange first.index last.index l.engine.entries) es =
        some (f :: rs) →
      f.index ≤ l.commit_index → l.splice es = none) :=
  ⟨fun _ _ _ hcl h => applyOp_commit_immutable hcl h,
   fun _ _ _ _ _ _ hh hl h0 hc hnd ht hb hsd hle =>
     splice_below_commit_aborts hh hl h0 hc hnd ht hb hsd hle⟩

/-- A log with entries 1@1 "a" and 2@1 "b", term 2, commit index 2. -/
def exLogC2 : Log :=
  ⟨⟨[⟨1, 1, some [97]⟩, ⟨2, 1, some [98]⟩], some (2, none), some (2, 1)⟩,
   2, none, 2, 1, 2, 1, true⟩

/-- Claim C2 witness: on `exLogC2`, an append leaves the committed entries 1
and 2 unchanged, and splicing a conflicting entry at committed index 2 is
fatal. -/
theorem claim_commit_immutability_witness :
    (∃ r, applyOp exLogC2 (LogOp.append none) = some r ∧
      r.1.get 1 = exLogC2.get 1 ∧ r.1.get 2 = exLogC2.get 2) ∧
    exLogC2.splice [⟨2, 2, some [122]⟩] = none := by
  constructor
  · have ha : applyOp exLogC2 (LogOp.append none) =
        some (⟨⟨[⟨1, 1, some [97]⟩, ⟨2, 1, some [98]⟩, ⟨3, 2, none⟩],
            some (2, none), some (2, 1)⟩, 2, none, 3, 2, 2, 1, true⟩,
          [EngineOp.set (Key.entry 3), EngineOp.flush]) := by decide
    exact ⟨_, ha,
      claim_commit_immutability.1 exLogC2 (LogOp.append none) _ (by decide) ha
        1 (by decide),
      claim_commit_immutability.1 exLogC2 (LogOp.append none) _ (by decide) ha
        2 (by decide)⟩
  · exact claim_commit_immutability.2 exLogC2 [⟨2, 2, some [122]⟩]
      ⟨2, 2, some [122]⟩ ⟨2, 2, some [122]⟩ ⟨2, 2, some [122]⟩ []
      rfl rfl (by decide) rfl rfl (by decide) (by decide) (by decide) (by decide)

/-! ## Duplicate splices -/

theorem scanRange_eq_of_dup {l : Log} {es : List Entry} {first last : Entry}
    (hp : l.engine.entries.Pairwise idxLt)
    (hh : es.head? = some first) (hl : es.getLast? = some last)
    (hc : contiguousB es = true)
    (hdup : ∀ e ∈ es, l.get e.index = some e) :
    scanRange first.index last.index l.engine.entries = es := by
  have hsp : (scanRange first.index last.index l.engine.entries).Pairwise idxLt :=
    List.Pairwise.sublist (List.filter_sublist l.engine.entries) hp
  apply pairwise_ext hsp (contiguousB_pairwise hc)
  intro i
  rw [getE_scanRange]
  by_cases hin : first.index ≤ i ∧ i ≤ last.index
  · rw [if_pos hin]
    rcases contiguousB_coverage hc hh hl i hin.1 hin.2 with ⟨e, he, hei⟩
    have h1 : getE l.engine.entries i = some e := by
      rw [← hei]; exact hdup e he
    have h2 : getE es i = some e := by
      rw [← hei]; exact getE_eq_some_of_mem (contiguousB_pairwise hc) he
    rw [h1, h2]
  · rw [if_neg hin]
    symm
    apply getE_eq_none_of_all_ne
    intro e he hei
    have b1 := contiguousB_head_le_mem hc hh e he
    have b2 := contiguousB_mem_le_last hc hl e he
    exact hin ⟨hei ▸ b1, hei ▸ b2⟩

theorem splice_all_duplicates {l : Log} {es : List Entry} {first last : Entry}
    (hp : l.engine.entries.Pairwise idxLt)
    (hh : es.head? = some first) (hl : es.getLast? = some last)
    (h0 : ¬ (first.index = 0 ∨ first.term = 0))
    (hc : contiguousB es = true) (hnd : termsNonDecB es = true)
    (ht : ¬ l.term < last.term) (hb : baseOK l first = true)
    (hdup : ∀ e ∈ es, l.get e.index = some e) :
    l.splice es = some (l.last_index, l, []) := by
  cases es with
  | nil => exact Option.noConfusion hh
  | cons e0 tl =>
    have he0 : e0 = first := by simpa using hh
    subst he0
    rw [Log.splice]
    simp only [List.head?_cons, hl]
    rw [if_neg h0, if_neg (not_not_intro hc), if_neg (not_not_intro hnd),
      if_neg ht, if_neg (not_not_intro hb), spliceWrite,
      scanRange_eq_of_dup hp (rfl : (e0 :: tl).head? = some e0) hl hc hdup,
      skipDup_refl]

/-- Claim C9: a well-formed splice whose entries all exactly duplicate stored
entries succeeds, returns `last_index` and performs no engine operation, with
no condition on the commit index: the fatal below-commit check applies only
to the first non-duplicate entry, so re-splicing committed entries is not an
error. -/
theorem claim_duplicate_splice_ignores_commit (l : Log) (es : List Entry)
    (first last : Entry) (hp : l.engine.entries.Pairwise idxLt)
    (hh : es.head? = some first) (hl : es.getLast? = some last)
    (h0 : ¬ (first.index = 0 ∨ first.term = 0))
    (hc : contiguousB es = true) (hnd : termsNonDecB es = true)
    (ht : ¬ l.term < last.term) (hb : baseOK l first = true)
    (hdup : ∀ e ∈ es, l.get e.index = some e) :
    l.splice es = some (l.last_index, l, []) :=
  splice_all_duplicates hp hh hl h0 hc hnd ht hb hdup

/-- Claim C9 witness: re-splicing the two committed entries of `exLogC2`
(commit index 2, so both entries are at or below it) is a successful no-op. -/
theorem claim_duplicate_splice_ignores_commit_witness :
    (1 : Nat) ≤ exLogC2.commit_index ∧
    exLogC2.splice [⟨1, 1, some [97]⟩, ⟨2, 1, some [98]⟩] =
      some (exLogC2.last_index, exLogC2, []) :=
  ⟨by decide,
   claim_duplicate_splice_ignores_commit exLogC2
     [⟨1, 1, some [97]⟩, ⟨2, 1, some [98]⟩] ⟨1, 1, some [97]⟩ ⟨2, 1, some [98]⟩
     (by decide) rfl (by decide) (by decide) (by decide) (by decide) (by decide)
     (by decide) (by decide)⟩

/-- Claim C4: a valid splice that changes the log (nonempty trace), re-run
immediately on the resulting state, is a no-op: it returns the same index,
leaves the state unchanged, and performs no engine set, delete or flush. The
engine entry store is assumed sorted by index, the representation invariant
of the ordered engine. -/
theorem claim_splice_idempotence (l : Log) (es : List Entry) (ret : Nat)
    (l' : Log) (tr : List EngineOp) (hp : l.engine.entries.Pairwise idxLt)
    (hs : l.splice es = some (ret, l', tr)) (hw : tr ≠ []) :
    l'.splice es = some (ret, l', []) := by
  rcases splice_cases hs with ⟨hnil, hr⟩ | ⟨first, last, hh, hl, h0, hc, hnd, ht, hb, hsw⟩
  · rw [Prod.mk.injEq, Prod.mk.injEq] at hr
    exact absurd hr.2.2 hw
  · rcases spliceWrite_cases hsw with ⟨hsd, hr⟩ | ⟨f, rs, hsd, hcm, hr⟩
    · rw [Prod.mk.injEq, Prod.mk.injEq] at hr
      exact absurd hr.2.2 hw
    · rcases skipDup_spec hsd with ⟨k, hk, hdrop, htake⟩
      have hret : ret = last.index := congrArg Prod.fst hr
      have h2 : l' = (spliceApply l (f :: rs) last).2.1 :=
        congrArg (fun p => p.2.1) hr
      have hpes : es.Pairwise idxLt := contiguousB_pairwise hc
      have hsc : (scanRange first.index last.index l.engine.entries).Pairwise idxLt :=
        List.Pairwise.sublist (List.filter_sublist l.engine.entries) hp
      have hp' : l'.engine.entries.Pairwise idxLt := by
        rw [h2, spliceApply_entries]
        exact pairwise_foldl_delE (pairwise_foldl_setE hp)
      have hcf : contiguousB (f :: rs) = true := by
        rw [hdrop]; exact contiguousB_drop hc k
      have hfes : f ∈ es := by
        have hmm : f ∈ f :: rs := by simp
        rw [hdrop] at hmm
        exact (List.drop_sublist k es).mem hmm
      have hrestge : ∀ x ∈ f :: rs, f.index ≤ x.index :=
        contiguousB_head_le_mem hcf rfl
      have hfge : first.index ≤ f.index := contiguousB_head_le_mem hc hh f hfes
      have hfirstes : first ∈ es := by
        cases es with
        | nil => exact Option.noConfusion hh
        | cons a tl =>
          have ha : a = first := by simpa using hh
          rw [← ha]
          simp
      have hfle : first.index ≤ last.index :=
        contiguousB_mem_le_last hc hl first hfirstes
      have h0' : first.index ≠ 0 := fun hx => h0 (Or.inl hx)
      have hdup : ∀ e ∈ es, l'.get e.index = some e := by
        intro e he
        rw [← List.take_append_drop k es] at he
        rcases List.mem_append.mp he with hetake | hedrop
        · have hesc : e ∈ scanRange first.index last.index l.engine.entries := by
            rw [htake] at hetake
            exact List.mem_of_mem_take hetake
          have hget : getE (scanRange first.index last.index l.engine.entries)
              e.index = some e := getE_eq_some_of_mem hsc hesc
          rw [getE_scanRange] at hget
          by_cases hin : first.index ≤ e.index ∧ e.index ≤ last.index
          · rw [if_pos hin] at hget
            rw [h2]
            show getE (spliceApply l (f :: rs) last).2.1.engine.entries e.index =
              some e
            rw [spliceApply_getE_other ?hrest (Or.inl hin.2)]
            · exact hget
            case hrest =>
              intro x hx
              have hsplit : List.Pairwise idxLt (List.take k es ++ List.drop k es) := by
                rw [List.take_append_drop]
                exact hpes
              have hpa := (List.pairwise_append.mp hsplit).2.2
              have hlt : e.index < x.index :=
                hpa e hetake x (by rw [hdrop] at hx; exact hx)
              omega
          · rw [if_neg hin] at hget
            exact Option.noConfusion hget
        · rw [h2]
          show getE (spliceApply l (f :: rs) last).2.1.engine.entries e.index =
            some e
          exact spliceApply_getE_mem (contiguousB_pairwise hcf)
            (fun x hx => contiguousB_mem_le_last hc hl x
              ((List.drop_sublist k es).mem (by rw [hdrop] at hx; exact hx)))
            (by rw [hdrop]; exact hedrop)
      have hbase' : baseOK l' first = true := by
        have hgeq : l'.get (first.index - 1) = l.get (first.index - 1) := by
          rw [h2]
          show getE (spliceApply l (f :: rs) last).2.1.engine.entries
              (first.index - 1) = getE l.engine.entries (first.index - 1)
          apply spliceApply_getE_other
          · intro x hx
            have := hrestge x hx
            omega
          · left
            omega
        simp only [baseOK] at hb ⊢
        rw [hgeq]
        exact hb
      have ht' : ¬ l'.term < last.term := by
        rw [h2]
        exact ht
      have hfinal := splice_all_duplicates hp' hh hl h0 hc hnd ht' hbase' hdup
      rw [hfinal]
      have hli : l'.last_index = last.index := by rw [h2]; rfl
      rw [hli, hret]

/-- Claim C4 witness: re-running the scenario-3 conflict splice on its own
result is a no-op returning the same index with an empty trace. -/
theorem claim_splice_idempotence_witness :
    exLog3'.splice exEs3 = some (3, exLog3', []) :=
  claim_splice_idempotence exLog3 exEs3 3 exLog3'
    [EngineOp.set (Key.entry 2), EngineOp.set (Key.entry 3), EngineOp.flush]
    (by decide) (by decide) (by decide)

/-! ## Recovery fidelity -/

/-- The last index and term recovered from the entry key family, `(0, 0)`
when empty — the quantity `Log::new` computes from its scan. -/
def lastOf (es : List Entry) : Nat × Nat :=
  match es.getLast? with
  | some e => (e.index, e.term)
  | none => (0, 0)

/-- Consistency of the cached log state with the engine contents: what
reopening the engine recovers. The entry store is sorted by index (the
ordered-engine representation invariant). -/
def cacheOK (l : Log) : Prop :=
  l.engine.entries.Pairwise idxLt ∧
  (l.last_index, l.last_term) = lastOf l.engine.entries ∧
  (l.term, l.vote) = l.engine.termVote.getD (0, none) ∧
  (l.commit_index, l.commit_term) = l.engine.commitIdx.getD (0, 0)

theorem new_cacheOK {e : Engine} (hp : e.entries.Pairwise idxLt) :
    cacheOK (Log.new e) := by
  refine ⟨hp, ?_, ?_, ?_⟩
  · show ((lastOf e.entries).1, (lastOf e.entries).2) = lastOf e.entries
    exact Prod.mk.eta
  · exact Prod.mk.eta
  · exact Prod.mk.eta

theorem pairwise_append_single {es : List Entry} {x : Entry}
    (hp : es.Pairwise idxLt) (hlt : ∀ e ∈ es, e.index < x.index) :
    (es ++ [x]).Pairwise idxLt :=
  List.pairwise_append.mpr
    ⟨hp, List.pairwise_singleton _ _,
     fun a ha b hb => (List.mem_singleton.mp hb) ▸ hlt a ha⟩

theorem lastOf_concat (es : List Entry) (x : Entry) :
    lastOf (es ++ [x]) = (x.index, x.term) := by
  simp only [lastOf, List.getLast?_concat]

theorem append_cacheOK {l : Log} {c : Option (List Nat)}
    {r : Nat × Log × List EngineOp} (hok : cacheOK l)
    (h : l.append c = some r) : cacheOK r.2.1 := by
  rcases hok with ⟨hp, hlast, htv, hci⟩
  have hbound : ∀ e ∈ l.engine.entries, e.index < l.last_index + 1 := by
    intro e he
    cases hgl : l.engine.entries.getLast? with
    | none =>
      rw [List.getLast?_eq_none_iff] at hgl
      rw [hgl] at he
      cases he
    | some g =>
      have hg : l.last_index = g.index := by
        rw [lastOf, hgl] at hlast
        exact congrArg Prod.fst hlast
      have := pairwise_mem_le_getLast hp hgl e he
      omega
  have hset : setE l.engine.entries ⟨l.last_index + 1, l.term, c⟩ =
      l.engine.entries ++ [⟨l.last_index + 1, l.term, c⟩] :=
    setE_append_of_all_lt hbound
  rw [Log.append] at h
  by_cases ht : l.term = 0
  · rw [if_pos ht] at h
    exact Option.noConfusion h
  · rw [if_neg ht, Option.some_inj] at h
    subst h
    refine ⟨?_, ?_, htv, hci⟩
    · show (setE l.engine.entries ⟨l.last_index + 1, l.term, c⟩).Pairwise idxLt
      rw [hset]
      exact pairwise_append_single hp hbound
    · show (l.last_index + 1, l.term) =
        lastOf (setE l.engine.entries ⟨l.last_index + 1, l.term, c⟩)
      rw [hset, lastOf_concat]

theorem set_term_vote_cacheOK {l : Log} {t : Nat} {v : Option Nat}
    {r : Log × List EngineOp} (hok : cacheOK l)
    (h : l.set_term_vote t v = some r) : cacheOK r.1 := by
  rcases hok with ⟨hp, hlast, htv, hci⟩
  rw [Log.set_term_vote] at h
  split_ifs at h with h1 h2 h3 h4
  · rw [Option.some_inj] at h
    subst h
    exact ⟨hp, hlast, htv, hci⟩
  · rw [Option.some_inj] at h
    subst h
    exact ⟨hp, hlast, rfl, hci⟩

theorem commit_cacheOK {l : Log} {i : Nat} {r : Nat × Log × List EngineOp}
    (hok : cacheOK l) (h : l.commit i = some r) : cacheOK r.2.1 := by
  rcases hok with ⟨hp, hlast, htv, hci⟩
  cases hg : l.get i with
  | none =>
    rw [Log.commit, hg] at h
    exact Option.noConfusion h
  | some e =>
    simp only [Log.commit, hg] at h
    by_cases h1 : e.index < l.commit_index
    · rw [if_pos h1] at h
      exact Option.noConfusion h
    · rw [if_neg h1] at h
      by_cases h2 : e.index = l.commit_index
      · rw [if_pos h2, Option.some_inj] at h
        subst h
        exact ⟨hp, hlast, htv, hci⟩
      · rw [if_neg h2, Option.some_inj] at h
        subst h
        exact ⟨hp, hlast, htv, rfl⟩

theorem splice_cacheOK {l : Log} {es : List Entry}
    {r : Nat × Log × List EngineOp} (hok : cacheOK l)
    (h : l.splice es = some r) : cacheOK r.2.1 := by
  rcases splice_cases h with ⟨_, hr⟩ | ⟨first, last, hh, hl, h0, hc, hnd, ht, hb, hsw⟩
  · rw [hr]
    exact hok
  · rcases spliceWrite_cases hsw with ⟨_, hr⟩ | ⟨f, rs, hsd, hcm, hr⟩
    · rw [hr]
      exact hok
    · rcases hok with ⟨hp, hlast, htv, hci⟩
      rcases skipDup_spec hsd with ⟨k, hk, hdrop, htake⟩
      have hcf : contiguousB (f :: rs) = true := by
        rw [hdrop]
        exact contiguousB_drop hc k
      have hle : ∀ x ∈ f :: rs, x.index ≤ last.index := by
        intro x hx
        exact contiguousB_mem_le_last hc hl x
          ((List.drop_sublist k es).mem (by rw [hdrop] at hx; exact hx))
      have hlastmem : last ∈ f :: rs := by
        have hne : es.drop k ≠ [] := by
          rw [← hdrop]
          exact List.cons_ne_nil f rs
        have hgl2 := getLast?_drop_of_ne_nil hne
        rw [← hdrop] at hgl2
        rw [← hgl2] at hl
        exact List.mem_of_getLast?_eq_some hl
      have holdbound : ∀ x ∈ l.engine.entries, x.index ≤ l.last_index := by
        intro x hx
        cases hgl : l.engine.entries.getLast? with
        | none =>
          rw [List.getLast?_eq_none_iff] at hgl
          rw [hgl] at hx
          cases hx
        | some g =>
          have hg : l.last_index = g.index := by
            rw [lastOf, hgl] at hlast
            exact congrArg Prod.fst hlast
          rw [hg]
          exact pairwise_mem_le_getLast hp hgl x hx
      have hpAD : ((spliceDels l last).foldl delE
          ((f :: rs).foldl setE l.engine.entries)).Pairwise idxLt :=
        pairwise_foldl_delE (pairwise_foldl_setE hp)
      have hgetlast : getE ((spliceDels l last).foldl delE
          ((f :: rs).foldl setE l.engine.entries)) last.index = some last := by
        have := spliceApply_getE_mem (l := l) (contiguousB_pairwise hcf) hle hlastmem
        rw [spliceApply_entries] at this
        exact this
      have hmemAD : last ∈ (spliceDels l last).foldl delE
          ((f :: rs).foldl setE l.engine.entries) := mem_of_getE hgetlast
      have hboundAD : ∀ x ∈ (spliceDels l last).foldl delE
          ((f :: rs).foldl setE l.engine.entries), x.index ≤ last.index := by
        intro x hx
        rcases mem_foldl_delE hx with ⟨hx1, hx2⟩
        rcases mem_foldl_setE hx1 with hx3 | hx3
        · exact hle x hx3
        · have hxl : x.index ≤ l.last_index := holdbound x hx3
          have : ¬ (last.index < x.index ∧ x.index ≤ l.last_index) :=
            fun hcon => hx2 (mem_spliceDels.mpr hcon)
          omega
      have hlastAD : ((spliceDels l last).foldl delE
          ((f :: rs).foldl setE l.engine.entries)).getLast? = some last :=
        getLast?_eq_of_max hpAD hmemAD hboundAD
      rw [hr]
      refine ⟨?_, ?_, htv, hci⟩
      · rw [spliceApply_entries]
        exact hpAD
      · show (last.index, last.term) =
          lastOf (spliceApply l (f :: rs) last).2.1.engine.entries
        rw [spliceApply_entries, lastOf, hlastAD]

theorem applyOp_cacheOK {l : Log} {op : LogOp} {r : Log × List EngineOp}
    (hok : cacheOK l) (h : applyOp l op = some r) : cacheOK r.1 := by
  cases op with
  | append c =>
    cases ha : l.append c with
    | none => rw [applyOp, ha] at h; exact Option.noConfusion h
    | some a =>
      rw [applyOp, ha, Option.map_some', Option.some_inj] at h
      rw [← h]
      exact append_cacheOK hok ha
  | commit i =>
    cases ha : l.commit i with
    | none => rw [applyOp, ha] at h; exact Option.noConfusion h
    | some a =>
      rw [applyOp, ha, Option.map_some', Option.some_inj] at h
      rw [← h]
      exact commit_cacheOK hok ha
  | set_term_vote t v =>
    exact set_term_vote_cacheOK hok (h : l.set_term_vote t v = some r)
  | splice es =>
    cases ha : l.splice es with
    | none => rw [applyOp, ha] at h; exact Option.noConfusion h
    | some a =>
      rw [applyOp, ha, Option.map_some', Option.some_inj] at h
      rw [← h]
      exact splice_cacheOK hok ha
  | enable_fsync b =>
    rw [applyOp, Option.some_inj] at h
    rw [← h]
    exact hok

theorem applySeq_cacheOK {ops : List LogOp} :
    ∀ {l l' : Log}, cacheOK l → applySeq l ops = some l' → cacheOK l' := by
  induction ops with
  | nil =>
    intro l l' hok h
    rw [applySeq, Option.some_inj] at h
    subst h
    exact hok
  | cons op rest ih =>
    intro l l' hok h
    rw [applySeq] at h
    cases ha : applyOp l op with
    | none => rw [ha] at h; exact Option.noConfusion h
    | some a =>
      rw [ha] at h
      exact ih (applyOp_cacheOK hok ha) h

/-- Claim C3: after any successful sequence of operations starting from a log
opened on a (sorted) engine, reopening the resulting engine recovers cached
term, vote, last index/term and commit index/term equal to their values
before reopening — `Log::new` defaults `(0, none)`, `(0, 0)`, `(0, 0)` apply
exactly when the corresponding keys are absent — and `get` agrees at every
index after reopening. -/
theorem claim_recovery_fidelity (e : Engine) (ops : List LogOp) (l' : Log)
    (hp : e.entries.Pairwise idxLt)
    (h : applySeq (Log.new e) ops = some l') :
    (Log.new l'.engine).term = l'.term ∧
    (Log.new l'.engine).vote = l'.vote ∧
    (Log.new l'.engine).last_index = l'.last_index ∧
    (Log.new l'.engine).last_term = l'.last_term ∧
    (Log.new l'.engine).commit_index = l'.commit_index ∧
    (Log.new l'.engine).commit_term = l'.commit_term ∧
    (∀ i, (Log.new l'.engine).get i = l'.get i) := by
  have hok : cacheOK l' := applySeq_cacheOK (new_cacheOK hp) h
  rcases hok with ⟨_, hlast, htv, hci⟩
  refine ⟨?_, ?_, ?_, ?_, ?_, ?_, fun i => rfl⟩
  · show (l'.engine.termVote.getD (0, none)).1 = l'.term
    rw [← htv]
  · show (l'.engine.termVote.getD (0, none)).2 = l'.vote
    rw [← htv]
  · show (lastOf l'.engine.entries).1 = l'.last_index
    rw [← hlast]
  · show (lastOf l'.engine.entries).2 = l'.last_term
    rw [← hlast]
  · show (l'.engine.commitIdx.getD (0, 0)).1 = l'.commit_index
    rw [← hci]
  · show (l'.engine.commitIdx.getD (0, 0)).2 = l'.commit_term
    rw [← hci]

/-- Claim C3 witness: reopening after the scenario-1 sequence (set term,
two appends, a commit) recovers all six cached values and all entries. -/
theorem claim_recovery_fidelity_witness :
    ∃ l', applySeq (Log.new ⟨[], none, none⟩)
        [LogOp.set_term_vote 1 none, LogOp.append (some [97]),
         LogOp.append (some [98]), LogOp.commit 2] = some l' ∧
      (Log.new l'.engine).term = l'.term ∧
      (Log.new l'.engine).vote = l'.vote ∧
      (Log.new l'.engine).last_index = l'.last_index ∧
      (Log.new l'.engine).last_term = l'.last_term ∧
      (Log.new l'.engine).commit_index = l'.commit_index ∧
      (Log.new l'.engine).commit_term = l'.commit_term ∧
      (∀ i, (Log.new l'.engine).get i = l'.get i) := by
  refine ⟨⟨⟨[⟨1, 1, some [97]⟩, ⟨2, 1, some [98]⟩], some (1, none), some (2, 1)⟩,
      1, none, 2, 1, 2, 1, true⟩, by decide, ?_⟩
  exact claim_recovery_fidelity ⟨[], none, none⟩
    [LogOp.set_term_vote 1 none, LogOp.append (some [97]),
     LogOp.append (some [98]), LogOp.commit 2] _ (by decide) (by decide)
